import Mathlib

/-!
Verification of the uav-sim drone-network simulator.

Shallow embedding of the simulator's pure computational kernels:
geometry helpers and channel sensing (utils/util_function.py), the
CSMA/CA backoff state machine (mac/csma_ca.py), the OPAR objective
computation (routing/opar/opar.py), greedy forwarding
(routing/greedy/greedy_neighbor_table.py, greedy.py), the delivery
metrics updates and the waiting-list sweep (routing/dsdv/dsdv.py,
routing/greedy/greedy.py), and the PrudentCaster local graph with its
maximum-leaf-spanning-tree construction
(routing/prudent_caster/graph.py).

Machine reals are modelled by rationals; the source's comparison
sqrt(s) < r on nonnegative s, r is embedded as s < r^2 on the squares.
Simulation timestamps and durations are rationals (microseconds).
-/

namespace UavSim

/-- 3-D coordinates or velocity vector, over the rationals. -/
structure Vec3 where
  x : ℚ
  y : ℚ
  z : ℚ
deriving DecidableEq, Repr

/-- Squared 3-D Euclidean distance.  The source's
euclidean_distance_3d returns the square root; every use we model
compares it against a nonnegative range, so we work with squares. -/
def distSq (p q : Vec3) : ℚ :=
  (p.x - q.x) ^ 2 + (p.y - q.y) ^ 2 + (p.z - q.z) ^ 2

/-- utils/util_function.py, check_channel_availability: scan the
channel_states mapping (a list of pairs of a drone id and the length
of the users list of its channel resource); the channel is busy iff
some other drone within sensing range holds its resource.  The
source's test d < SENSING_RANGE on the Euclidean distance is embedded
as the squared comparison. -/
def check_channel_availability (states : List (ℕ × ℕ)) (senderId : ℕ)
    (senderPos : Vec3) (dronePos : ℕ → Vec3) (sensingRange : ℚ) : Bool :=
  match states with
  | [] => true
  | (nodeId, users) :: rest =>
    if users ≠ 0 then
      if nodeId ≠ senderId then
        if distSq senderPos (dronePos nodeId) < sensingRange ^ 2 then
          false
        else
          check_channel_availability rest senderId senderPos dronePos sensingRange
      else
        check_channel_availability rest senderId senderPos dronePos sensingRange
    else
      check_channel_availability rest senderId senderPos dronePos sensingRange

/-- routing/opar/opar.py, link_lifetime_predictor: coefficient A
(squared norm of the relative velocity). -/
def linkA (v1 v2 : Vec3) : ℚ :=
  (v1.x - v2.x) ^ 2 + (v1.y - v2.y) ^ 2 + (v1.z - v2.z) ^ 2

/-- routing/opar/opar.py, link_lifetime_predictor: coefficient B. -/
def linkB (c1 c2 v1 v2 : Vec3) : ℚ :=
  2 * (v1.x - v2.x) * (c1.x - c2.x) +
  2 * (v1.y - v2.y) * (c1.y - c2.y) +
  2 * (v1.z - v2.z) * (c1.z - c2.z)

/-- routing/opar/opar.py, link_lifetime_predictor: coefficient C. -/
def linkC (c1 c2 : Vec3) (maxCommRange : ℚ) : ℚ :=
  ((c1.x - c2.x) ^ 2 + (c1.y - c2.y) ^ 2 + (c1.z - c2.z) ^ 2) - maxCommRange ^ 2

/-- Discriminant under the square root in link_lifetime_predictor. -/
def linkDiscriminant (c1 v1 c2 v2 : Vec3) (maxCommRange : ℚ) : ℚ :=
  linkB c1 c2 v1 v2 ^ 2 - 4 * linkA v1 v2 * linkC c1 c2 maxCommRange

/-- link_lifetime_predictor evaluates
(-B ± sqrt(B^2 - 4AC)) / (2A); it is well defined only when the
denominator 2A is nonzero and the discriminant is nonnegative. -/
def lifetimeDefined (c1 v1 c2 v2 : Vec3) (maxCommRange : ℚ) : Prop :=
  linkA v1 v2 ≠ 0 ∧ 0 ≤ linkDiscriminant c1 v1 c2 v2 maxCommRange

instance (c1 v1 c2 v2 : Vec3) (r : ℚ) : Decidable (lifetimeDefined c1 v1 c2 v2 r) :=
  inferInstanceAs (Decidable (And _ _))

/-- Running accumulators of the per-path loop in
Opar.next_hop_selection (source lines 143-162 and 175-194):
total_cost, the variable t of the second objective term, and
minimum_link_lifetime. -/
structure OparPathStats where
  total_cost : ℚ
  t : ℚ
  minimum_link_lifetime : ℚ
deriving DecidableEq, Repr

/-- One iteration of the per-link loop of Opar.next_hop_selection.
A link is a pair of its cost and its predicted lifetime delta_t.
Note the source updates t with delta_t itself (not 1/delta_t) when
1/delta_t > t. -/
def oparPathStep (s : OparPathStats) (link : ℚ × ℚ) : OparPathStats :=
  let link_cost := link.1
  let delta_t := link.2
  { total_cost := s.total_cost + link_cost
    t := if 1 / delta_t > s.t then delta_t else s.t
    minimum_link_lifetime :=
      if delta_t < s.minimum_link_lifetime then delta_t else s.minimum_link_lifetime }

/-- Per-path loop of Opar.next_hop_selection: fold over the path's
links starting from total_cost = 0, t = 0,
minimum_link_lifetime = 1e11. -/
def oparPathScan (links : List (ℚ × ℚ)) : OparPathStats :=
  links.foldl oparPathStep ⟨0, 0, 100000000000⟩

/-- Objective value the source computes for a path:
obj = w1 * total_cost + w2 * t (source line 162 and 194). -/
def oparObjective (w1 w2 : ℚ) (links : List (ℚ × ℚ)) : ℚ :=
  w1 * (oparPathScan links).total_cost + w2 * (oparPathScan links).t

/-- Modelled from the spec: the objective the specification defines,
obj = w1 * total_cost + w2 * max(1/delta_t over the path's links). -/
def oparSpecObjective (w1 w2 : ℚ) (links : List (ℚ × ℚ)) : ℚ :=
  w1 * (links.map Prod.fst).sum +
    w2 * ((links.map (fun l => 1 / l.2)).foldl max 0)

/-- Iteration rule of Opar.next_hop_selection: the first candidate's
objective is adopted unconditionally (line 163), each later candidate
replaces the incumbent iff its objective is strictly smaller
(line 196). -/
def oparBestObj (firstObj : ℚ) (laterObjs : List ℚ) : ℚ :=
  laterObjs.foldl (fun best obj => if obj < best then obj else best) firstObj

/-- mac/csma_ca.py, lines 150-158: on a simpy.Interrupt after
already_wait time of the current to_wait timer, compute the remaining
wait; in the DIFS segment (remaining > backoff) restart with
DIFS + backoff; in the backoff segment freeze the backoff at the
remaining value.  Returns the new (backoff, to_wait). -/
def interruptUpdate (difs backoff to_wait already_wait : ℚ) : ℚ × ℚ :=
  let remaining := to_wait - already_wait
  if remaining > backoff then
    (backoff, difs + backoff)
  else
    (remaining, difs + remaining)

/-- The while-loop of CsmaCa.mac_send (lines 83-158), restricted to
the events that drive assignments of pkd.first_attempt_time.  Each
interrupted round is a pair (idleWait, alreadyWait): the time spent in
wait_idle_channel before the timer starts and the time the timer ran
before the channel-busy interrupt; finalIdle is the idle-wait of the
round whose timer completes.  The loop records env.now into
pkd.first_attempt_time whenever number_retransmission_attempt equals 1
(lines 87-93); the returned list collects those assigned values in
order. -/
def macSendAssignLoop (attempt : ℕ) (difs : ℚ) :
    List (ℚ × ℚ) → ℚ → ℚ → ℚ → ℚ → List ℚ → List ℚ
  | [], finalIdle, now, _backoff, _to_wait, assigns =>
    let now1 := now + finalIdle
    if attempt = 1 then assigns ++ [now1] else assigns
  | (idleWait, alreadyWait) :: rest, finalIdle, now, backoff, to_wait, assigns =>
    let now1 := now + idleWait
    let assigns1 := if attempt = 1 then assigns ++ [now1] else assigns
    let now2 := now1 + alreadyWait
    let p := interruptUpdate difs backoff to_wait alreadyWait
    macSendAssignLoop attempt difs rest finalIdle now2 p.1 p.2 assigns1

/-- All values assigned to pkd.first_attempt_time during one
CsmaCa.mac_send call entered at time start with retransmission counter
attempt, initial backoff backoff0 and to_wait = DIFS + backoff0
(source lines 75-79). -/
def macSendAssignTimes (attempt : ℕ) (difs backoff0 : ℚ)
    (interrupts : List (ℚ × ℚ)) (finalIdle : ℚ) (start : ℚ) : List ℚ :=
  macSendAssignLoop attempt difs interrupts finalIdle start backoff0 (difs + backoff0) []

/-- A packet held in a drone's waiting list: identifier, creation
time and relative deadline. -/
structure WPacket where
  pid : ℕ
  creation : ℚ
  deadline : ℚ
deriving DecidableEq, Repr

/-- Python list-iterator semantics of the for-loop in
Dsdv.check_waiting_list (lines 236-246) and Greedy.check_waiting_list
(lines 217-227): the iterator index advances by one after each yielded
element even when the body removed the current element from the list,
and list.remove deletes the first occurrence.  The route oracle
abstracts next_hop_selection's has_route answer for a packet.  State:
remaining fuel, current iterator index, waiting list, transmit queue. -/
def checkWaitingListLoop (now : ℚ) (route : WPacket → Bool) :
    ℕ → ℕ → List WPacket → List WPacket → List WPacket × List WPacket
  | 0, _, waiting, queued => (waiting, queued)
  | fuel + 1, i, waiting, queued =>
    match waiting[i]? with
    | none => (waiting, queued)
    | some pkd =>
      if now > pkd.creation + pkd.deadline then
        checkWaitingListLoop now route fuel (i + 1) (waiting.erase pkd) queued
      else if route pkd then
        checkWaitingListLoop now route fuel (i + 1) (waiting.erase pkd) (queued ++ [pkd])
      else
        checkWaitingListLoop now route fuel (i + 1) waiting queued

/-- One periodic sweep of the waiting list, returning the waiting
list and the packets moved to the transmitting queue.  The iterator
visits at most length-many positions. -/
def check_waiting_list_once (now : ℚ) (route : WPacket → Bool)
    (waiting : List WPacket) : List WPacket × List WPacket :=
  checkWaitingListLoop now route waiting.length 0 waiting []

/-- Python dict assignment d[k] = v on an association list: replace
the first binding of k, else append a new binding. -/
def dictSet {α : Type} (k : ℕ) (v : α) : List (ℕ × α) → List (ℕ × α)
  | [] => [(k, v)]
  | (k1, v1) :: rest => if k1 = k then (k, v) :: rest else (k1, v1) :: dictSet k v rest

/-- Python set.add on a set modelled as a duplicate-free list. -/
def setAdd (x : ℕ) (s : List ℕ) : List ℕ :=
  if x ∈ s then s else s ++ [x]

/-- The delivery-accounting state of simulator.metrics used by
packet_reception. -/
structure Metrics where
  deliver_time_dict : List (ℕ × ℚ)
  throughput_dict : List (ℕ × ℚ)
  hop_cnt_dict : List (ℕ × ℕ)
  datapacket_arrived : List ℕ
deriving DecidableEq, Repr

/-- The metrics update both Dsdv.packet_reception (dsdv.py lines
142-146) and Greedy.packet_reception (greedy.py lines 123-128)
perform when a DataPacket with id pid, creation time creation and
current TTL ttl reaches its destination at time now:
latency = now - creation, throughput =
DATA_PACKET_LENGTH / (latency / 1e6), hop count = current TTL, and
pid is added to the datapacket_arrived set. -/
def record_arrival (dataPacketLength : ℚ) (m : Metrics) (pid : ℕ)
    (creation : ℚ) (ttl : ℕ) (now : ℚ) : Metrics :=
  let latency := now - creation
  { deliver_time_dict := dictSet pid latency m.deliver_time_dict
    throughput_dict := dictSet pid (dataPacketLength / (latency / 1000000)) m.throughput_dict
    hop_cnt_dict := dictSet pid ttl m.hop_cnt_dict
    datapacket_arrived := setAdd pid m.datapacket_arrived }

/-- Dsdv.packet_reception at the destination records the metrics
unconditionally (no membership guard, dsdv.py lines 141-146). -/
def dsdv_receive_at_dst (dataPacketLength : ℚ) (m : Metrics) (pid : ℕ)
    (creation : ℚ) (ttl : ℕ) (now : ℚ) : Metrics :=
  record_arrival dataPacketLength m pid creation ttl now

/-- Greedy.packet_reception at the destination records the metrics
only when the packet id is not yet in datapacket_arrived
(greedy.py lines 122-128). -/
def greedy_receive_at_dst (dataPacketLength : ℚ) (m : Metrics) (pid : ℕ)
    (creation : ℚ) (ttl : ℕ) (now : ℚ) : Metrics :=
  if pid ∈ m.datapacket_arrived then m
  else record_arrival dataPacketLength m pid creation ttl now

/-- The scan of GreedyNeighborTable.best_neighbor (lines 106-117):
iterate the neighbor table (entries are (id, stored position,
updated time)) carrying best_distance and best_id, updating on a
strictly smaller distance to the destination.  Distances are
compared squared. -/
def best_neighbor_loop (dstPos : Vec3) :
    List (ℕ × Vec3 × ℚ) → ℚ → ℕ → ℚ × ℕ
  | [], bestDistance, bestId => (bestDistance, bestId)
  | (key, pos, _) :: rest, bestDistance, bestId =>
    if distSq pos dstPos < bestDistance then
      best_neighbor_loop dstPos rest (distSq pos dstPos) key
    else
      best_neighbor_loop dstPos rest bestDistance bestId

/-- GreedyNeighborTable.best_neighbor: start from the sender's own
distance and id. -/
def best_neighbor (table : List (ℕ × Vec3 × ℚ)) (myId : ℕ)
    (myPos dstPos : Vec3) : ℕ :=
  (best_neighbor_loop dstPos table (distSq myPos dstPos) myId).2

/-- GreedyNeighborTable.purge (lines 76-84): drop entries whose
updated_time + entry_life_time < now.  The source iterates over a
copy of the key list, so removal is a plain filter. -/
def greedy_purge (now entryLifeTime : ℚ)
    (table : List (ℕ × Vec3 × ℚ)) : List (ℕ × Vec3 × ℚ) :=
  table.filter (fun e => decide (¬ (e.2.2 + entryLifeTime < now)))

/-- Greedy.next_hop_selection (greedy.py lines 74-97): purge the
neighbor table, pick best_neighbor, report no route when it equals
the sender's own id.  Returns (has_route, next_hop_id). -/
def greedy_next_hop_selection (now entryLifeTime : ℚ)
    (table : List (ℕ × Vec3 × ℚ)) (myId : ℕ) (myPos dstPos : Vec3) : Bool × ℕ :=
  let table1 := greedy_purge now entryLifeTime table
  let best := best_neighbor table1 myId myPos dstPos
  if best = myId then (false, myId) else (true, best)

/-! PrudentCaster local graph (routing/prudent_caster/graph.py).
The defaultdict(list) adjacency is an association list in insertion
order; adjGet is a read with default [], adjTouch models the
defaultdict's key creation on a bare read, adjSet an item write. -/

/-- Adjacency mapping of graph.py's self.adjList. -/
abbrev Adj := List (ℕ × List ℕ)

/-- Read adjList[v] without creating the binding (value default []). -/
def adjGet (a : Adj) (v : ℕ) : List ℕ :=
  (List.lookup v a).getD []

/-- Item write adjList[v] = l: replace the first binding else append. -/
def adjSet (v : ℕ) (l : List ℕ) : Adj → Adj
  | [] => [(v, l)]
  | (k, lk) :: rest => if k = v then (v, l) :: rest else (k, lk) :: adjSet v l rest

/-- Bare defaultdict read adjList[v]: creates the binding v -> [] at
the end of the insertion order when absent. -/
def adjTouch (v : ℕ) : Adj → Adj
  | [] => [(v, [])]
  | (k, lk) :: rest => if k = v then (k, lk) :: rest else (k, lk) :: adjTouch v rest

/-- One of the two symmetric statement pairs in Graph.add_edge:
`if y not in self.adjList[x]: self.adjList[x].append(y)`.  The
membership test reads adjList[x] through the defaultdict and so
creates the binding. -/
def addEdgeHalf (a : Adj) (x y : ℕ) : Adj :=
  let a1 := adjTouch x a
  if y ∈ adjGet a1 x then a1 else adjSet x (adjGet a1 x ++ [y]) a1

/-- Graph.add_edge (graph.py lines 18-25): ignore self loops, then
append each endpoint to the other's list when absent. -/
def add_edge (a : Adj) (v1 v2 : ℕ) : Adj :=
  if v1 = v2 then a
  else addEdgeHalf (addEdgeHalf a v1 v2) v2 v1

/-- One of the two symmetric statement pairs in Graph.remove_edge:
`if y in self.adjList[x]: self.adjList[x].remove(y)`; list.remove
drops the first occurrence. -/
def removeEdgeHalf (a : Adj) (x y : ℕ) : Adj :=
  let a1 := adjTouch x a
  if y ∈ adjGet a1 x then adjSet x ((adjGet a1 x).erase y) a1 else a1

/-- Graph.remove_edge (graph.py lines 27-32). -/
def remove_edge (a : Adj) (v1 v2 : ℕ) : Adj :=
  removeEdgeHalf (removeEdgeHalf a v1 v2) v2 v1

/-- PrudentCaster Graph object: adjacency, per-node last-seen times,
and the optional root (None until get_mlst sets it). -/
structure PGraph where
  adjList : Adj
  nodeTime : List (ℕ × ℚ)
  root : Option ℕ
deriving Repr

/-- Graph.add_node (lines 14-16): records the node's time only. -/
def add_node (g : PGraph) (n : ℕ) (t : ℚ) : PGraph :=
  { g with nodeTime := dictSet n t g.nodeTime }

/-- A mutation of the Graph API. -/
inductive GraphOp where
  | addNode (n : ℕ) (t : ℚ)
  | addEdge (v1 v2 : ℕ)
  | removeEdge (v1 v2 : ℕ)

/-- Apply one Graph API call. -/
def applyOp (g : PGraph) : GraphOp → PGraph
  | .addNode n t => add_node g n t
  | .addEdge v1 v2 => { g with adjList := add_edge g.adjList v1 v2 }
  | .removeEdge v1 v2 => { g with adjList := remove_edge g.adjList v1 v2 }

/-- The freshly constructed Graph(env). -/
def emptyGraph : PGraph :=
  { adjList := [], nodeTime := [], root := none }

/-- Apply a sequence of Graph API calls. -/
def applyOps (g : PGraph) (ops : List GraphOp) : PGraph :=
  ops.foldl applyOp g

/-- The C10 adjacency invariant: symmetric, irreflexive,
duplicate-free. -/
def AdjInvariant (a : Adj) : Prop :=
  (∀ v1 v2, v2 ∈ adjGet a v1 ↔ v1 ∈ adjGet a v2) ∧
  (∀ v, v ∉ adjGet a v) ∧
  (∀ v, (adjGet a v).Nodup)

/-- The keys of the adjacency dict, in insertion order
(Graph.get_nodes). -/
def adjKeys (a : Adj) : List ℕ :=
  a.map Prod.fst

/-- Degree used by Graph.get_sorted_nodes: self.adjList.get(node)
(a non-creating read), length of the neighbor list, 0 if absent. -/
def nodeDegree (a : Adj) (n : ℕ) : ℕ :=
  match List.lookup n a with
  | some l => l.length
  | none => 0

/-- The sort key ordering of Graph.get_sorted_nodes: degree
descending, then node id ascending ((-degree, node) lexicographic). -/
def sortKeyLe (a : Adj) (m n : ℕ) : Bool :=
  decide (nodeDegree a n < nodeDegree a m) ||
    (decide (nodeDegree a m = nodeDegree a n) && decide (m ≤ n))

/-- Stable insertion into an already-ordered list (after all elements
that compare at-or-before x). -/
def stableInsert (le : ℕ → ℕ → Bool) (x : ℕ) : List ℕ → List ℕ
  | [] => [x]
  | y :: ys => if le y x then y :: stableInsert le x ys else x :: y :: ys

/-- Graph.get_sorted_nodes (lines 99-136): Python's stable sorted()
by key (-degree, node).  On distinct node ids the key order is a
strict total order, so any comparison sort produces the same list;
we use insertion sort. -/
def get_sorted_nodes (a : Adj) (nodes : List ℕ) : List ℕ :=
  nodes.foldl (fun acc x => stableInsert (sortKeyLe a) x acc) []

/-- Graph.sort (lines 93-97): re-order every adjacency list by
get_sorted_nodes.  The Python loop mutates the lists one by one, but
the sort key reads only list lengths, which sorting preserves, so
the simultaneous map coincides with the sequential mutation. -/
def graphSort (g : PGraph) : PGraph :=
  { g with adjList := g.adjList.map (fun e => (e.1, get_sorted_nodes g.adjList e.2)) }

/-- Graph.find_child_unconnected (lines 138-150): the neighbors of
node that are not yet connected, with their count. -/
def find_child_unconnected (a : Adj) (node : ℕ) (connected : List ℕ) : ℕ × List ℕ :=
  match List.lookup node a with
  | none => (0, [])
  | some l =>
    let u := l.filter (fun nb => decide (nb ∉ connected))
    (u.length, u)

/-- Graph.find_max_connected_neighbor (lines 152-170): the neighbor
of node with the most already-connected neighbors; the running
maximum starts at -1, so any neighbor replaces the initial None. -/
def find_max_connected_neighbor (a : Adj) (node : ℕ) (connected : List ℕ) :
    ℤ × Option ℕ :=
  match List.lookup node a with
  | none => (-1, none)
  | some l =>
    l.foldl (fun st neighbor =>
      let cc : ℤ :=
        match List.lookup neighbor a with
        | some ln => ((ln.filter (fun nn => decide (nn ∈ connected))).length : ℤ)
        | none => 0
      if cc > st.1 then (cc, some neighbor) else st) (-1, none)

/-- Graph.is_leaf (lines 83-91): the root is never a leaf; a
non-root node is a leaf iff it has at most one neighbor.  (In
Python node == self.root is False when root is None.) -/
def is_leaf (g : PGraph) (node : ℕ) : Bool :=
  if g.root = some node then false
  else decide ((adjGet g.adjList node).length ≤ 1)

/-- Graph.get_leaves (lines 74-81): the keys classified leaves. -/
def get_leaves (g : PGraph) : List ℕ :=
  (adjKeys g.adjList).filter (fun n => is_leaf g n)

/-- Python truthiness of an optional int: None and 0 are falsy.
get_mlst tests `if parent:` and `if node_selected:` this way. -/
def pyTruthy : Option ℕ → Bool
  | none => false
  | some n => decide (n ≠ 0)

/-- add_edge on the spanning tree under construction. -/
def tree_add_edge (t : PGraph) (v1 v2 : ℕ) : PGraph :=
  { t with adjList := add_edge t.adjList v1 v2 }

/-- Selection state of get_mlst's two-hop scan (lines 226-243):
max_unconnected, node_selected, parent, node_list. -/
structure MlstSel where
  maxUnconnected : ℤ
  nodeSelected : Option ℕ
  parent : Option ℕ
  nodeList : List ℕ

/-- get_mlst lines 209-218: a fresh tree with the given root, and the
connected set {root}; add an edge root-neighbor for every direct
neighbor of root and mark it connected. -/
def mlstPhase1 (a : Adj) (root : ℕ) : PGraph × List ℕ :=
  (adjGet a root).foldl
    (fun st nb => (tree_add_edge st.1 root nb, setAdd nb st.2))
    (({ adjList := [], nodeTime := [], root := some root } : PGraph), [root])

/-- get_mlst lines 226-243: among the 2-hop nodes nn (neighbors of
root's neighbors, not yet connected) pick the one connecting the most
still-unconnected nodes, remembering its parent and those nodes.
The defaultdict reads adjList[node] may create empty bindings in the
Python source; such bindings carry no neighbors, are never attached
later, and do not alter any other node's degree, so they are not
modelled. -/
def mlstSelect (a : Adj) (root : ℕ) (connected : List ℕ) : MlstSel :=
  (adjGet a root).foldl (fun st node =>
    (adjGet a node).foldl (fun st nn =>
      if nn ∈ connected then st
      else
        let fc := find_child_unconnected a nn connected
        if (fc.1 : ℤ) > st.maxUnconnected then
          { maxUnconnected := (fc.1 : ℤ), nodeSelected := some nn,
            parent := some node, nodeList := fc.2 }
        else st) st)
    { maxUnconnected := -1, nodeSelected := none, parent := none, nodeList := [] }

/-- get_mlst lines 246-248: `if parent:` — note Python falsiness of
node id 0. -/
def mlstPhase2 (root : ℕ) (sel : MlstSel) (st : PGraph × List ℕ) : PGraph × List ℕ :=
  if pyTruthy sel.parent then
    (tree_add_edge st.1 root (sel.parent.getD 0), setAdd (sel.parent.getD 0) st.2)
  else st

/-- get_mlst lines 250-255: `if node_selected:` — attach the selected
node under its parent and hang its unconnected neighbors off it.
(When node_selected is truthy the scan also set parent, possibly to
node id 0, which `if parent:` skipped; Python then still uses the
variable parent here, matching getD 0.) -/
def mlstPhase3 (sel : MlstSel) (st : PGraph × List ℕ) : PGraph × List ℕ :=
  if pyTruthy sel.nodeSelected then
    let ns := sel.nodeSelected.getD 0
    let t2 := tree_add_edge st.1 (sel.parent.getD 0) ns
    let c2 := setAdd ns st.2
    sel.nodeList.foldl (fun st2 l => (tree_add_edge st2.1 ns l, setAdd l st2.2)) (t2, c2)
  else st

/-- get_mlst lines 257-266: every remaining unconnected node, in
(-degree, id) order, is attached to its neighbor with the most
connected neighbors when that neighbor is truthy. -/
def mlstPhase4 (a : Adj) (st : PGraph × List ℕ) : PGraph × List ℕ :=
  (get_sorted_nodes a (adjKeys a)).foldl (fun st2 node =>
    if node ∈ st2.2 then st2
    else
      let mn := (find_max_connected_neighbor a node st2.2).2
      if pyTruthy mn then
        (tree_add_edge st2.1 (mn.getD 0) node, setAdd node st2.2)
      else st2) st

/-- Graph.get_mlst (lines 204-270): sort the adjacency, build the
tree phase by phase, return it with its leaves; return early after
phase 1 when every key is already connected. -/
def get_mlst (g : PGraph) (root : ℕ) : PGraph × List ℕ :=
  let a := (graphSort g).adjList
  let st1 := mlstPhase1 a root
  if st1.2.length = a.length then (st1.1, get_leaves st1.1)
  else
    let sel := mlstSelect a root st1.2
    let st4 := mlstPhase4 a (mlstPhase3 sel (mlstPhase2 root sel st1))
    (st4.1, get_leaves st4.1)

/-- Decidable irreflexivity check on the stored adjacency entries. -/
def adjIrreflB (a : Adj) : Bool :=
  a.all (fun e => decide (e.1 ∉ e.2))

/-- Every stored binding has a non-empty neighbor list; holds for
graphs built from empty by add_edge alone, and gives leaves exactly
one tree neighbor. -/
def KeysNonempty (a : Adj) : Prop :=
  ∀ k l, List.lookup k a = some l → l ≠ []

/-- Concrete test fixture: the chain 1 - 2 - 3 built through the
Graph API. -/
def chainGraph : PGraph :=
  { adjList := add_edge (add_edge [] 1 2) 2 3, nodeTime := [], root := none }

end UavSim

namespace UavSim

/-! Theorems for claims C1, C2, C3, C5, C7, C9. -/

/-- Helper for C7: the scan returns false iff a busy other drone in
sensing range occurs in the states list. -/
theorem check_channel_availability_false_iff (states : List (ℕ × ℕ)) (senderId : ℕ)
    (senderPos : Vec3) (dronePos : ℕ → Vec3) (sensingRange : ℚ) :
    check_channel_availability states senderId senderPos dronePos sensingRange = false ↔
      ∃ e ∈ states, e.2 ≠ 0 ∧ e.1 ≠ senderId ∧
        distSq senderPos (dronePos e.1) < sensingRange ^ 2 := by
  induction states with
  | nil => simp [check_channel_availability]
  | cons hd tl ih =>
    obtain ⟨nodeId, users⟩ := hd
    by_cases hu : users ≠ 0
    · by_cases hn : nodeId ≠ senderId
      · by_cases hd2 : distSq senderPos (dronePos nodeId) < sensingRange ^ 2
        · simp [check_channel_availability, hu, hn, hd2]
        · simp [check_channel_availability, hu, hn, hd2, ih]
      · simp only [ne_eq, not_not] at hn
        simp [check_channel_availability, hu, hn, ih]
    · simp only [ne_eq, not_not] at hu
      simp [check_channel_availability, hu, ih]

/-- C7: check_channel_availability reports the channel busy (returns
false) iff some entry of channel_states belongs to a drone other than
the sender, holds its resource (non-empty user set) and lies within
SENSING_RANGE of the sender; otherwise it reports the channel idle
(returns true). -/
theorem check_channel_availability_busy_iff (states : List (ℕ × ℕ)) (senderId : ℕ)
    (senderPos : Vec3) (dronePos : ℕ → Vec3) (sensingRange : ℚ) :
    (check_channel_availability states senderId senderPos dronePos sensingRange = false ↔
      ∃ e ∈ states, e.2 ≠ 0 ∧ e.1 ≠ senderId ∧
        distSq senderPos (dronePos e.1) < sensingRange ^ 2) ∧
    (check_channel_availability states senderId senderPos dronePos sensingRange = true ↔
      ¬ ∃ e ∈ states, e.2 ≠ 0 ∧ e.1 ≠ senderId ∧
        distSq senderPos (dronePos e.1) < sensingRange ^ 2) := by
  constructor
  · exact check_channel_availability_false_iff states senderId senderPos dronePos sensingRange
  · rw [← check_channel_availability_false_iff states senderId senderPos dronePos sensingRange]
    cases h : check_channel_availability states senderId senderPos dronePos sensingRange <;>
      simp [h]

/-- C9: link_lifetime_predictor is partial.  First input: two drones
at the same position (hence within any positive communication range,
so Opar.dijkstra reaches this pair) with identical velocity vectors
make A = 0, so both roots divide by zero.  Second input: drones
10 apart with max_comm_range 5 and a purely transverse relative
velocity make the discriminant B^2 - 4AC negative, so math.sqrt is
taken of a negative number. -/
theorem link_lifetime_predictor_partial :
    (linkA ⟨1, 2, 3⟩ ⟨1, 2, 3⟩ = 0 ∧
      distSq ⟨0, 0, 0⟩ ⟨0, 0, 0⟩ < (5 : ℚ) ^ 2 ∧
      ¬ lifetimeDefined ⟨0, 0, 0⟩ ⟨1, 2, 3⟩ ⟨0, 0, 0⟩ ⟨1, 2, 3⟩ 5) ∧
    (linkDiscriminant ⟨0, 0, 0⟩ ⟨0, 1, 0⟩ ⟨10, 0, 0⟩ ⟨0, 0, 0⟩ 5 < 0 ∧
      ¬ lifetimeDefined ⟨0, 0, 0⟩ ⟨0, 1, 0⟩ ⟨10, 0, 0⟩ ⟨0, 0, 0⟩ 5) := by
  norm_num [linkA, linkB, linkC, linkDiscriminant, distSq, lifetimeDefined]

/-- C1: the objective Opar.next_hop_selection computes deviates from
the specified obj = w1*total_cost + w2*max(1/delta_t): on a one-link
path of cost 1 with delta_t = 2 (w1 = w2 = 1/2) the code yields 3/2
whereas the specified objective is 3/4, because the loop stores
delta_t itself in t.  Consequently, of two equal-cost paths the
iteration (which keeps the strictly smaller computed objective) keeps
the path with the smaller minimum link lifetime, while the specified
objective prefers the one with the larger minimum lifetime. -/
theorem opar_objective_deviates :
    oparObjective (1/2) (1/2) [(1, 2)] = 3/2 ∧
    oparSpecObjective (1/2) (1/2) [(1, 2)] = 3/4 ∧
    oparObjective (1/2) (1/2) [(1, 2)] ≠ oparSpecObjective (1/2) (1/2) [(1, 2)] ∧
    (oparPathScan [(1, 10), (1, 10)]).total_cost =
      (oparPathScan [(1, 5), (1, 5)]).total_cost ∧
    (oparPathScan [(1, 5), (1, 5)]).minimum_link_lifetime <
      (oparPathScan [(1, 10), (1, 10)]).minimum_link_lifetime ∧
    oparBestObj (oparObjective (1/2) (1/2) [(1, 10), (1, 10)])
        [oparObjective (1/2) (1/2) [(1, 5), (1, 5)]] =
      oparObjective (1/2) (1/2) [(1, 5), (1, 5)] ∧
    oparSpecObjective (1/2) (1/2) [(1, 10), (1, 10)] <
      oparSpecObjective (1/2) (1/2) [(1, 5), (1, 5)] := by
  norm_num [oparObjective, oparSpecObjective, oparPathScan, oparPathStep, oparBestObj]

/-- C2: pkd.first_attempt_time is re-assigned on later iterations of
the mac_send loop.  Concrete run: first transmission attempt
(counter = 1), DIFS = 10, backoff = 5; the channel is idle at entry,
the timer is interrupted after 3 us, the channel is idle again 7 us
later — the field is assigned twice, at times 0 and 10, not exactly
once. -/
theorem csma_first_attempt_time_reassigned :
    macSendAssignTimes 1 10 5 [(0, 3)] 7 0 = [0, 10] ∧
    (macSendAssignTimes 1 10 5 [(0, 3)] 7 0).length ≠ 1 := by
  norm_num [macSendAssignTimes, macSendAssignLoop, interruptUpdate]

/-- C5: on an interrupt after already_wait = e of the to_wait timer,
if the remaining wait exceeds the backoff (still in DIFS) the next
wait is DIFS plus the unchanged backoff; otherwise the backoff is
frozen at the remaining wait and the next wait is DIFS plus that
frozen value; in both cases the mac_send loop continues with the
updated pair, first waiting for an idle channel again. -/
theorem csma_interrupt_freeze (difs backoff to_wait e : ℚ) :
    (to_wait - e > backoff →
      interruptUpdate difs backoff to_wait e = (backoff, difs + backoff)) ∧
    (¬ to_wait - e > backoff →
      interruptUpdate difs backoff to_wait e = (to_wait - e, difs + (to_wait - e))) ∧
    (∀ (attempt : ℕ) (rest : List (ℚ × ℚ)) (finalIdle now idleWait : ℚ)
        (assigns : List ℚ),
      macSendAssignLoop attempt difs ((idleWait, e) :: rest) finalIdle now backoff
          to_wait assigns =
        macSendAssignLoop attempt difs rest finalIdle (now + idleWait + e)
          (interruptUpdate difs backoff to_wait e).1
          (interruptUpdate difs backoff to_wait e).2
          (if attempt = 1 then assigns ++ [now + idleWait] else assigns)) := by
  refine ⟨fun h => ?_, fun h => ?_, fun attempt rest finalIdle now idleWait assigns => rfl⟩
  · simp [interruptUpdate, h]
  · simp [interruptUpdate, h]

/-- Witness for C5 at concrete inputs: DIFS = 10, backoff = 5,
to_wait = 15; an interrupt after 3 us is in the DIFS segment, one
after 12 us is in the backoff segment and freezes the backoff at 3. -/
theorem csma_interrupt_freeze_witness :
    interruptUpdate 10 5 15 3 = (5, 15) ∧ interruptUpdate 10 5 15 12 = (3, 13) := by
  constructor
  · rw [(csma_interrupt_freeze 10 5 15 3).1 (by norm_num)]
    norm_num
  · rw [(csma_interrupt_freeze 10 5 15 12).2.1 (by norm_num)]
    norm_num

/-- C3: one sweep of check_waiting_list does not remove every expired
packet: on the waiting list [p1, p2] with both packets past
creation_time + deadline at time 100, the sweep removes p1 and then —
because list removal during iteration shifts p2 into the consumed
index — skips p2, which stays in the waiting list although expired. -/
theorem waiting_list_sweep_skips_expired :
    check_waiting_list_once 100 (fun _ => true)
        [⟨1, 0, 10⟩, ⟨2, 0, 10⟩] = ([⟨2, 0, 10⟩], []) ∧
    (100 : ℚ) > (0 : ℚ) + 10 := by
  norm_num [check_waiting_list_once, checkWaitingListLoop, List.erase]

/-- Helper: looking up the key just written by dictSet returns the
written value. -/
theorem lookup_dictSet {α : Type} (k : ℕ) (v : α) (d : List (ℕ × α)) :
    List.lookup k (dictSet k v d) = some v := by
  induction d with
  | nil => simp [dictSet, List.lookup]
  | cons hd tl ih =>
    obtain ⟨k1, v1⟩ := hd
    by_cases h : k1 = k
    · simp [dictSet, h, List.lookup]
    · have hne : (k == k1) = false := beq_eq_false_iff_ne.2 fun hh => h hh.symm
      simp [dictSet, if_neg h, List.lookup, hne, ih]

/-- Helper: adding a member leaves the set list unchanged. -/
theorem setAdd_mem_length (x : ℕ) (s : List ℕ) (h : x ∈ s) :
    (setAdd x s).length = s.length := by
  simp [setAdd, h]

/-- Helper: the added element is a member afterwards. -/
theorem mem_setAdd (x : ℕ) (s : List ℕ) : x ∈ setAdd x s := by
  by_cases h : x ∈ s <;> simp [setAdd, h]

/-- C6: at the destination, both DSDV and Greedy record
latency = now - creation_time,
throughput = DATA_PACKET_LENGTH / (latency / 1e6) and
hop count = the packet's current TTL, and the datapacket_arrived
update is idempotent: a duplicate reception never increases its
cardinality (DSDV re-adds an already-present id; Greedy skips the
whole block). -/
theorem delivery_metrics_correct (dataPacketLength : ℚ) (m : Metrics)
    (pid : ℕ) (creation : ℚ) (ttl : ℕ) (now now2 : ℚ) :
    List.lookup pid (dsdv_receive_at_dst dataPacketLength m pid creation ttl now).deliver_time_dict
      = some (now - creation) ∧
    List.lookup pid (dsdv_receive_at_dst dataPacketLength m pid creation ttl now).throughput_dict
      = some (dataPacketLength / ((now - creation) / 1000000)) ∧
    List.lookup pid (dsdv_receive_at_dst dataPacketLength m pid creation ttl now).hop_cnt_dict
      = some ttl ∧
    (pid ∈ m.datapacket_arrived →
      (dsdv_receive_at_dst dataPacketLength m pid creation ttl now).datapacket_arrived.length
        = m.datapacket_arrived.length) ∧
    (dsdv_receive_at_dst dataPacketLength
        (dsdv_receive_at_dst dataPacketLength m pid creation ttl now)
        pid creation ttl now2).datapacket_arrived.length
      = (dsdv_receive_at_dst dataPacketLength m pid creation ttl now).datapacket_arrived.length ∧
    (pid ∉ m.datapacket_arrived →
      greedy_receive_at_dst dataPacketLength m pid creation ttl now
        = dsdv_receive_at_dst dataPacketLength m pid creation ttl now) ∧
    (pid ∈ m.datapacket_arrived →
      greedy_receive_at_dst dataPacketLength m pid creation ttl now = m) := by
  refine ⟨?_, ?_, ?_, ?_, ?_, ?_, ?_⟩
  · exact lookup_dictSet pid _ _
  · exact lookup_dictSet pid _ _
  · exact lookup_dictSet pid _ _
  · intro h
    exact setAdd_mem_length pid _ h
  · exact setAdd_mem_length pid _ (mem_setAdd pid _)
  · intro h
    simp [greedy_receive_at_dst, dsdv_receive_at_dst, h]
  · intro h
    simp [greedy_receive_at_dst, h]

/-- Witness for C6 at concrete inputs: a first reception records the
latency, a duplicate reception at Greedy leaves the metrics
unchanged, and a duplicate at DSDV keeps the cardinality. -/
theorem delivery_metrics_correct_witness :
    List.lookup 5 (dsdv_receive_at_dst 2048 ⟨[], [], [], []⟩ 5 10 3 60).deliver_time_dict
      = some (60 - 10) ∧
    greedy_receive_at_dst 2048 ⟨[], [], [], [7]⟩ 7 10 3 60 = (⟨[], [], [], [7]⟩ : Metrics) ∧
    (dsdv_receive_at_dst 2048 ⟨[], [], [], [7]⟩ 7 10 3 60).datapacket_arrived.length
      = ([7] : List ℕ).length :=
  ⟨(delivery_metrics_correct 2048 ⟨[], [], [], []⟩ 5 10 3 60 60).1,
   (delivery_metrics_correct 2048 ⟨[], [], [], [7]⟩ 7 10 3 60 60).2.2.2.2.2.2 (by simp),
   (delivery_metrics_correct 2048 ⟨[], [], [], [7]⟩ 7 10 3 60 60).2.2.2.1 (by simp)⟩

/-- Helper for C8: the running best distance only decreases and stays
below every table entry's distance to the destination. -/
theorem best_neighbor_loop_le (dstPos : Vec3) :
    ∀ (l : List (ℕ × Vec3 × ℚ)) (bd : ℚ) (bid : ℕ),
      (best_neighbor_loop dstPos l bd bid).1 ≤ bd ∧
      ∀ e ∈ l, (best_neighbor_loop dstPos l bd bid).1 ≤ distSq e.2.1 dstPos := by
  intro l
  induction l with
  | nil => exact fun bd bid => ⟨le_refl bd, by simp⟩
  | cons hd tl ih =>
    intro bd bid
    obtain ⟨k, pos, tm⟩ := hd
    by_cases h : distSq pos dstPos < bd
    · obtain ⟨h1, h2⟩ := ih (distSq pos dstPos) k
      refine ⟨?_, ?_⟩
      · simpa [best_neighbor_loop, h] using h1.trans h.le
      · intro e he
        rcases List.mem_cons.1 he with he1 | he1
        · subst he1
          simpa [best_neighbor_loop, h] using h1
        · simpa [best_neighbor_loop, h] using h2 e he1
    · obtain ⟨h1, h2⟩ := ih bd bid
      refine ⟨?_, ?_⟩
      · simpa [best_neighbor_loop, h] using h1
      · intro e he
        rcases List.mem_cons.1 he with he1 | he1
        · subst he1
          simp only [best_neighbor_loop, if_neg h]
          exact h1.trans (not_lt.1 h)
        · simpa [best_neighbor_loop, h] using h2 e he1

/-- Helper for C8: the loop either keeps the initial pair, or returns
the key and distance of some table entry strictly closer than the
initial distance. -/
theorem best_neighbor_loop_cases (dstPos : Vec3) :
    ∀ (l : List (ℕ × Vec3 × ℚ)) (bd : ℚ) (bid : ℕ),
      ((best_neighbor_loop dstPos l bd bid).1 = bd ∧
        (best_neighbor_loop dstPos l bd bid).2 = bid) ∨
      (∃ e ∈ l, (best_neighbor_loop dstPos l bd bid).2 = e.1 ∧
        (best_neighbor_loop dstPos l bd bid).1 = distSq e.2.1 dstPos ∧
        (best_neighbor_loop dstPos l bd bid).1 < bd) := by
  intro l
  induction l with
  | nil => exact fun bd bid => Or.inl ⟨rfl, rfl⟩
  | cons hd tl ih =>
    intro bd bid
    obtain ⟨k, pos, tm⟩ := hd
    by_cases h : distSq pos dstPos < bd
    · rcases ih (distSq pos dstPos) k with ⟨h1, h2⟩ | ⟨e, he, h1, h2, h3⟩
      · refine Or.inr ⟨(k, pos, tm), List.mem_cons_self _ _, ?_, ?_, ?_⟩ <;>
          simp [best_neighbor_loop, h, h1, h2]
      · refine Or.inr ⟨e, List.mem_cons_of_mem _ he, ?_, ?_, ?_⟩
        · simpa [best_neighbor_loop, h] using h1
        · simpa [best_neighbor_loop, h] using h2
        · have : (best_neighbor_loop dstPos tl (distSq pos dstPos) k).1 < bd :=
            h3.trans h
          simpa [best_neighbor_loop, h] using this
    · rcases ih bd bid with ⟨h1, h2⟩ | ⟨e, he, h1, h2, h3⟩
      · exact Or.inl ⟨by simpa [best_neighbor_loop, h] using h1,
          by simpa [best_neighbor_loop, h] using h2⟩
      · refine Or.inr ⟨e, List.mem_cons_of_mem _ he, ?_, ?_, ?_⟩
        · simpa [best_neighbor_loop, h] using h1
        · simpa [best_neighbor_loop, h] using h2
        · simpa [best_neighbor_loop, h] using h3

/-- C8: best_neighbor returns a table entry whose stored position is
(squared-)distance-minimal to the destination among all entries and
strictly closer than the sender whenever such an entry exists; when
no entry is strictly closer it returns the sender's own id, and
Greedy.next_hop_selection then reports has_route = false. -/
theorem greedy_best_neighbor_correct (table : List (ℕ × Vec3 × ℚ)) (myId : ℕ)
    (myPos dstPos : Vec3) (now entryLifeTime : ℚ) :
    ((∃ e ∈ table, distSq e.2.1 dstPos < distSq myPos dstPos) →
      ∃ e ∈ table, best_neighbor table myId myPos dstPos = e.1 ∧
        distSq e.2.1 dstPos < distSq myPos dstPos ∧
        ∀ e2 ∈ table, distSq e.2.1 dstPos ≤ distSq e2.2.1 dstPos) ∧
    ((∀ e ∈ table, ¬ distSq e.2.1 dstPos < distSq myPos dstPos) →
      best_neighbor table myId myPos dstPos = myId) ∧
    ((∀ e ∈ greedy_purge now entryLifeTime table,
        ¬ distSq e.2.1 dstPos < distSq myPos dstPos) →
      (greedy_next_hop_selection now entryLifeTime table myId myPos dstPos).1 = false) := by
  have key : ∀ (t : List (ℕ × Vec3 × ℚ)),
      (∀ e ∈ t, ¬ distSq e.2.1 dstPos < distSq myPos dstPos) →
      best_neighbor t myId myPos dstPos = myId := by
    intro t ht
    rcases best_neighbor_loop_cases dstPos t (distSq myPos dstPos) myId with
      ⟨_, h2⟩ | ⟨e, he, _, h2, h3⟩
    · exact h2
    · exact absurd (h2 ▸ h3) (ht e he)
  refine ⟨?_, key table, ?_⟩
  · rintro ⟨e0, he0, hc0⟩
    rcases best_neighbor_loop_cases dstPos table (distSq myPos dstPos) myId with
      ⟨h1, _⟩ | ⟨e, he, h1, h2, h3⟩
    · exact absurd (h1 ▸ (best_neighbor_loop_le dstPos table (distSq myPos dstPos) myId).2 e0 he0)
        (not_le.2 hc0)
    · refine ⟨e, he, h1, h2 ▸ h3, fun e2 he2 => ?_⟩
      exact h2 ▸ (best_neighbor_loop_le dstPos table (distSq myPos dstPos) myId).2 e2 he2
  · intro h
    have := key (greedy_purge now entryLifeTime table) h
    simp [greedy_next_hop_selection, this]

/-- Witness for C8: with the sender at the origin, destination at
(10,0,0) and neighbors 2 at (5,0,0) and 3 at (2,0,0), some closest
strictly-closer neighbor is returned; with the single neighbor 2 at
(20,0,0) (not closer) next_hop_selection reports no route. -/
theorem greedy_best_neighbor_correct_witness :
    (∃ e ∈ [((2 : ℕ), (⟨5, 0, 0⟩ : Vec3), (0 : ℚ)), (3, ⟨2, 0, 0⟩, 0)],
      best_neighbor [((2 : ℕ), (⟨5, 0, 0⟩ : Vec3), (0 : ℚ)), (3, ⟨2, 0, 0⟩, 0)] 1
          ⟨0, 0, 0⟩ ⟨10, 0, 0⟩ = e.1 ∧
        distSq e.2.1 ⟨10, 0, 0⟩ < distSq ⟨0, 0, 0⟩ ⟨10, 0, 0⟩ ∧
        ∀ e2 ∈ [((2 : ℕ), (⟨5, 0, 0⟩ : Vec3), (0 : ℚ)), (3, ⟨2, 0, 0⟩, 0)],
          distSq e.2.1 ⟨10, 0, 0⟩ ≤ distSq e2.2.1 ⟨10, 0, 0⟩) ∧
    (greedy_next_hop_selection 0 1000000 [((2 : ℕ), (⟨20, 0, 0⟩ : Vec3), (0 : ℚ))] 1
        ⟨0, 0, 0⟩ ⟨10, 0, 0⟩).1 = false := by
  constructor
  · exact (greedy_best_neighbor_correct
      [((2 : ℕ), (⟨5, 0, 0⟩ : Vec3), (0 : ℚ)), (3, ⟨2, 0, 0⟩, 0)] 1
      ⟨0, 0, 0⟩ ⟨10, 0, 0⟩ 0 1000000).1
      ⟨(2, ⟨5, 0, 0⟩, 0), by simp, by norm_num [distSq]⟩
  · refine (greedy_best_neighbor_correct [((2 : ℕ), (⟨20, 0, 0⟩ : Vec3), (0 : ℚ))] 1
      ⟨0, 0, 0⟩ ⟨10, 0, 0⟩ 0 1000000).2.2 ?_
    intro e he
    have he2 : e = ((2 : ℕ), (⟨20, 0, 0⟩ : Vec3), (0 : ℚ)) := by
      have := List.mem_filter.1 he
      simpa using this.1
    subst he2
    norm_num [distSq]

/-! Lemmas on the PrudentCaster adjacency representation. -/

/-- A successful lookup comes from a stored binding. -/
theorem lookup_mem {a : Adj} {k : ℕ} {l : List ℕ}
    (h : List.lookup k a = some l) : (k, l) ∈ a := by
  induction a with
  | nil => simp [List.lookup] at h
  | cons hd tl ih =>
    obtain ⟨k1, l1⟩ := hd
    by_cases hk : k = k1
    · subst hk
      simp [List.lookup] at h
      simp [h]
    · have hne : (k == k1) = false := beq_eq_false_iff_ne.2 hk
      simp [List.lookup, hne] at h
      exact List.mem_cons_of_mem _ (ih h)

/-- Lookup after an item write. -/
theorem lookup_adjSet (v : ℕ) (l : List ℕ) (a : Adj) (w : ℕ) :
    List.lookup w (adjSet v l a) = if w = v then some l else List.lookup w a := by
  induction a with
  | nil =>
    by_cases hw : w = v
    · simp [adjSet, List.lookup, hw]
    · have hne : (w == v) = false := beq_eq_false_iff_ne.2 hw
      simp [adjSet, List.lookup, hne, hw]
  | cons hd tl ih =>
    obtain ⟨k, lk⟩ := hd
    by_cases hk : k = v
    · subst hk
      by_cases hw : w = k
      · subst hw
        simp [adjSet, List.lookup]
      · have hne : (w == k) = false := beq_eq_false_iff_ne.2 hw
        simp [adjSet, List.lookup, hne, hw]
    · by_cases hw : w = k
      · subst hw
        have hwv : ¬ w = v := hk
        simp [adjSet, if_neg hk, List.lookup, hwv]
      · have hne : (w == k) = false := beq_eq_false_iff_ne.2 hw
        simp [adjSet, if_neg hk, List.lookup, hne, ih]

/-- Lookup after a bare defaultdict read. -/
theorem lookup_adjTouch (v : ℕ) (a : Adj) (w : ℕ) :
    List.lookup w (adjTouch v a) =
      if w = v then some (adjGet a v) else List.lookup w a := by
  induction a with
  | nil =>
    by_cases hw : w = v
    · simp [adjTouch, List.lookup, hw, adjGet]
    · have hne : (w == v) = false := beq_eq_false_iff_ne.2 hw
      simp [adjTouch, List.lookup, hne, hw]
  | cons hd tl ih =>
    obtain ⟨k, lk⟩ := hd
    by_cases hk : k = v
    · subst hk
      by_cases hw : w = k
      · subst hw
        simp [adjTouch, List.lookup, adjGet]
      · have hne : (w == k) = false := beq_eq_false_iff_ne.2 hw
        simp [adjTouch, List.lookup, hne, hw]
    · by_cases hw : w = k
      · subst hw
        have hwv : ¬ w = v := hk
        simp [adjTouch, if_neg hk, List.lookup, hwv]
      · have hne : (w == k) = false := beq_eq_false_iff_ne.2 hw
        have hgl : adjGet ((k, lk) :: tl) v = adjGet tl v := by
          have hne2 : (v == k) = false := beq_eq_false_iff_ne.2 fun hh => hk hh.symm
          simp [adjGet, List.lookup, hne2]
        simp [adjTouch, if_neg hk, List.lookup, hne, ih, hgl]

/-- adjGet after an item write. -/
theorem adjGet_adjSet (v : ℕ) (l : List ℕ) (a : Adj) (w : ℕ) :
    adjGet (adjSet v l a) w = if w = v then l else adjGet a w := by
  simp only [adjGet, lookup_adjSet]
  split <;> rfl

/-- A bare defaultdict read does not change any value. -/
theorem adjGet_adjTouch (v : ℕ) (a : Adj) (w : ℕ) :
    adjGet (adjTouch v a) w = adjGet a w := by
  simp only [adjGet, lookup_adjTouch]
  split
  · next hw => subst hw; rfl
  · rfl

/-- Lookup after one add_edge half. -/
theorem lookup_addEdgeHalf (a : Adj) (x y w : ℕ) :
    List.lookup w (addEdgeHalf a x y) =
      if w = x then
        some (if y ∈ adjGet a x then adjGet a x else adjGet a x ++ [y])
      else List.lookup w a := by
  simp only [addEdgeHalf, adjGet_adjTouch]
  by_cases m : y ∈ adjGet a x
  · rw [if_pos m, lookup_adjTouch]
    by_cases hw : w = x
    · simp [hw, m]
    · simp [hw]
  · rw [if_neg m, lookup_adjSet]
    by_cases hw : w = x
    · simp [hw, m]
    · simp [hw, lookup_adjTouch]

/-- adjGet after one add_edge half. -/
theorem adjGet_addEdgeHalf (a : Adj) (x y w : ℕ) :
    adjGet (addEdgeHalf a x y) w =
      if w = x then
        (if y ∈ adjGet a x then adjGet a x else adjGet a x ++ [y])
      else adjGet a w := by
  simp only [adjGet, lookup_addEdgeHalf]
  split <;> rfl

/-- Characterization of add_edge's bindings for distinct endpoints. -/
theorem lookup_add_edge (a : Adj) (v1 v2 : ℕ) (h : v1 ≠ v2) (w : ℕ) :
    List.lookup w (add_edge a v1 v2) =
      if w = v2 then
        some (if v1 ∈ adjGet a v2 then adjGet a v2 else adjGet a v2 ++ [v1])
      else if w = v1 then
        some (if v2 ∈ adjGet a v1 then adjGet a v1 else adjGet a v1 ++ [v2])
      else List.lookup w a := by
  have h2 : ¬ v2 = v1 := fun hh => h hh.symm
  simp only [add_edge, if_neg h, lookup_addEdgeHalf, adjGet_addEdgeHalf, if_neg h2]

/-- add_edge with equal endpoints is the identity. -/
theorem add_edge_same (a : Adj) (v : ℕ) : add_edge a v v = a := by
  simp [add_edge]

/-- adjGet after add_edge, distinct endpoints. -/
theorem adjGet_add_edge (a : Adj) (v1 v2 : ℕ) (h : v1 ≠ v2) (w : ℕ) :
    adjGet (add_edge a v1 v2) w =
      if w = v2 then
        (if v1 ∈ adjGet a v2 then adjGet a v2 else adjGet a v2 ++ [v1])
      else if w = v1 then
        (if v2 ∈ adjGet a v1 then adjGet a v1 else adjGet a v1 ++ [v2])
      else adjGet a w := by
  simp only [adjGet, lookup_add_edge a v1 v2 h w]
  split
  · rfl
  · split <;> rfl

/-- Membership after add_edge, distinct endpoints. -/
theorem mem_adjGet_add_edge (a : Adj) (v1 v2 : ℕ) (h : v1 ≠ v2) (w x : ℕ) :
    x ∈ adjGet (add_edge a v1 v2) w ↔
      x ∈ adjGet a w ∨ (w = v1 ∧ x = v2) ∨ (w = v2 ∧ x = v1) := by
  rw [adjGet_add_edge a v1 v2 h w]
  by_cases hw2 : w = v2
  · subst hw2
    rw [if_pos rfl]
    by_cases m : v1 ∈ adjGet a w
    · rw [if_pos m]
      constructor
      · intro hx
        exact Or.inl hx
      · rintro (hx | ⟨hw1, hx2⟩ | ⟨_, hx1⟩)
        · exact hx
        · exact absurd hw1.symm (hw1 ▸ h)
        · exact hx1 ▸ m
    · rw [if_neg m]
      rw [List.mem_append, List.mem_singleton]
      constructor
      · rintro (hx | hx)
        · exact Or.inl hx
        · exact Or.inr (Or.inr ⟨rfl, hx⟩)
      · rintro (hx | ⟨hw1, _⟩ | ⟨_, hx1⟩)
        · exact Or.inl hx
        · exact absurd hw1.symm (hw1 ▸ h)
        · exact Or.inr hx1
  · rw [if_neg hw2]
    by_cases hw1 : w = v1
    · subst hw1
      rw [if_pos rfl]
      by_cases m : v2 ∈ adjGet a w
      · rw [if_pos m]
        constructor
        · intro hx
          exact Or.inl hx
        · rintro (hx | ⟨_, hx2⟩ | ⟨hwv2, _⟩)
          · exact hx
          · exact hx2 ▸ m
          · exact absurd hwv2 hw2
      · rw [if_neg m]
        rw [List.mem_append, List.mem_singleton]
        constructor
        · rintro (hx | hx)
          · exact Or.inl hx
          · exact Or.inr (Or.inl ⟨rfl, hx⟩)
        · rintro (hx | ⟨_, hx2⟩ | ⟨hwv2, _⟩)
          · exact Or.inl hx
          · exact Or.inr hx2
          · exact absurd hwv2 hw2
    · rw [if_neg hw1]
      constructor
      · intro hx
        exact Or.inl hx
      · rintro (hx | ⟨hwv1, _⟩ | ⟨hwv2, _⟩)
        · exact hx
        · exact absurd hwv1 hw1
        · exact absurd hwv2 hw2

/-- add_edge never removes a neighbor. -/
theorem add_edge_mono (a : Adj) (v1 v2 w x : ℕ)
    (hx : x ∈ adjGet a w) : x ∈ adjGet (add_edge a v1 v2) w := by
  by_cases h : v1 = v2
  · subst h
    rw [add_edge_same]
    exact hx
  · exact (mem_adjGet_add_edge a v1 v2 h w x).2 (Or.inl hx)

/-- add_edge installs the edge (v1 side) for distinct endpoints. -/
theorem add_edge_mem_self (a : Adj) (v1 v2 : ℕ) (h : v1 ≠ v2) :
    v2 ∈ adjGet (add_edge a v1 v2) v1 := by
  exact (mem_adjGet_add_edge a v1 v2 h v1 v2).2 (Or.inr (Or.inl ⟨rfl, rfl⟩))

/-- add_edge keeps every stored neighbor list non-empty. -/
theorem add_edge_keysNonempty (a : Adj) (v1 v2 : ℕ)
    (h : KeysNonempty a) : KeysNonempty (add_edge a v1 v2) := by
  by_cases hv : v1 = v2
  · subst hv
    rw [add_edge_same]
    exact h
  · intro k l hl
    rw [lookup_add_edge a v1 v2 hv k] at hl
    by_cases h2 : k = v2
    · rw [if_pos h2] at hl
      have hl2 : l = if v1 ∈ adjGet a v2 then adjGet a v2 else adjGet a v2 ++ [v1] :=
        (Option.some.inj hl).symm
      subst hl2
      by_cases m : v1 ∈ adjGet a v2
      · rw [if_pos m]
        exact List.ne_nil_of_mem m
      · rw [if_neg m]
        simp
    · rw [if_neg h2] at hl
      by_cases h1 : k = v1
      · rw [if_pos h1] at hl
        have hl2 : l = if v2 ∈ adjGet a v1 then adjGet a v1 else adjGet a v1 ++ [v2] :=
          (Option.some.inj hl).symm
        subst hl2
        by_cases m : v2 ∈ adjGet a v1
        · rw [if_pos m]
          exact List.ne_nil_of_mem m
        · rw [if_neg m]
          simp
      · rw [if_neg h1] at hl
        exact h k l hl

/-- Lookup after one remove_edge half. -/
theorem lookup_removeEdgeHalf (a : Adj) (x y w : ℕ) :
    List.lookup w (removeEdgeHalf a x y) =
      if w = x then
        some (if y ∈ adjGet a x then (adjGet a x).erase y else adjGet a x)
      else List.lookup w a := by
  simp only [removeEdgeHalf, adjGet_adjTouch]
  by_cases m : y ∈ adjGet a x
  · rw [if_pos m, lookup_adjSet]
    by_cases hw : w = x
    · simp [hw, m]
    · simp [hw, lookup_adjTouch]
  · rw [if_neg m, lookup_adjTouch]
    by_cases hw : w = x
    · simp [hw, m]
    · simp [hw]

/-- adjGet after one remove_edge half. -/
theorem adjGet_removeEdgeHalf (a : Adj) (x y w : ℕ) :
    adjGet (removeEdgeHalf a x y) w =
      if w = x then
        (if y ∈ adjGet a x then (adjGet a x).erase y else adjGet a x)
      else adjGet a w := by
  simp only [adjGet, lookup_removeEdgeHalf]
  split <;> rfl

/-- adjGet after remove_edge, distinct endpoints. -/
theorem adjGet_remove_edge (a : Adj) (v1 v2 : ℕ) (h : v1 ≠ v2) (w : ℕ) :
    adjGet (remove_edge a v1 v2) w =
      if w = v2 then
        (if v1 ∈ adjGet a v2 then (adjGet a v2).erase v1 else adjGet a v2)
      else if w = v1 then
        (if v2 ∈ adjGet a v1 then (adjGet a v1).erase v2 else adjGet a v1)
      else adjGet a w := by
  have h2 : ¬ v2 = v1 := fun hh => h hh.symm
  simp only [remove_edge, adjGet_removeEdgeHalf, if_neg h2]

/-- remove_edge with equal endpoints changes no value when the graph
is irreflexive at that node. -/
theorem adjGet_remove_edge_same (a : Adj) (v : ℕ) (hirr : v ∉ adjGet a v) (w : ℕ) :
    adjGet (remove_edge a v v) w = adjGet a w := by
  have hA1 : ∀ u, adjGet (removeEdgeHalf a v v) u = adjGet a u := by
    intro u
    rw [adjGet_removeEdgeHalf]
    by_cases hu : u = v
    · rw [if_pos hu, if_neg hirr, hu]
    · rw [if_neg hu]
  rw [remove_edge, adjGet_removeEdgeHalf]
  simp only [hA1]
  by_cases hw : w = v
  · rw [if_pos hw, if_neg hirr, hw]
  · rw [if_neg hw]

/-- Membership after remove_edge, distinct endpoints, on a
duplicate-free adjacency. -/
theorem mem_adjGet_remove_edge (a : Adj) (v1 v2 : ℕ) (h : v1 ≠ v2)
    (hnd : ∀ v, (adjGet a v).Nodup) (w x : ℕ) :
    x ∈ adjGet (remove_edge a v1 v2) w ↔
      x ∈ adjGet a w ∧ ¬ ((w = v1 ∧ x = v2) ∨ (w = v2 ∧ x = v1)) := by
  rw [adjGet_remove_edge a v1 v2 h w]
  by_cases hw2 : w = v2
  · subst hw2
    rw [if_pos rfl]
    by_cases m : v1 ∈ adjGet a w
    · rw [if_pos m, (hnd w).mem_erase_iff]
      constructor
      · rintro ⟨hne, hx⟩
        refine ⟨hx, ?_⟩
        rintro (⟨h1, _⟩ | ⟨_, h2⟩)
        · exact h h1.symm
        · exact hne h2
      · rintro ⟨hx, hno⟩
        exact ⟨fun he => hno (Or.inr ⟨rfl, he⟩), hx⟩
    · rw [if_neg m]
      constructor
      · intro hx
        refine ⟨hx, ?_⟩
        rintro (⟨h1, _⟩ | ⟨_, h2⟩)
        · exact h h1.symm
        · exact m (h2 ▸ hx)
      · exact fun hc => hc.1
  · rw [if_neg hw2]
    by_cases hw1 : w = v1
    · subst hw1
      rw [if_pos rfl]
      by_cases m : v2 ∈ adjGet a w
      · rw [if_pos m, (hnd w).mem_erase_iff]
        constructor
        · rintro ⟨hne, hx⟩
          refine ⟨hx, ?_⟩
          rintro (⟨_, h2⟩ | ⟨h1, _⟩)
          · exact hne h2
          · exact hw2 h1
        · rintro ⟨hx, hno⟩
          exact ⟨fun he => hno (Or.inl ⟨rfl, he⟩), hx⟩
      · rw [if_neg m]
        constructor
        · intro hx
          refine ⟨hx, ?_⟩
          rintro (⟨_, h2⟩ | ⟨h1, _⟩)
          · exact m (h2 ▸ hx)
          · exact hw2 h1
        · exact fun hc => hc.1
    · rw [if_neg hw1]
      constructor
      · intro hx
        refine ⟨hx, ?_⟩
        rintro (⟨h1, _⟩ | ⟨h2, _⟩)
        · exact hw1 h1
        · exact hw2 h2
      · exact fun hc => hc.1

/-- add_edge preserves the C10 invariant. -/
theorem add_edge_invariant (a : Adj) (v1 v2 : ℕ) (h : AdjInvariant a) :
    AdjInvariant (add_edge a v1 v2) := by
  obtain ⟨hs, hi, hn⟩ := h
  by_cases hv : v1 = v2
  · subst hv
    rw [add_edge_same]
    exact ⟨hs, hi, hn⟩
  · refine ⟨?_, ?_, ?_⟩
    · intro x y
      rw [mem_adjGet_add_edge a v1 v2 hv x y, mem_adjGet_add_edge a v1 v2 hv y x, hs x y]
      tauto
    · intro v
      rw [mem_adjGet_add_edge a v1 v2 hv v v]
      rintro (hm | ⟨h1, h2⟩ | ⟨h1, h2⟩)
      · exact hi v hm
      · exact hv (h1.symm.trans h2)
      · exact hv (h2.symm.trans h1)
    · intro v
      rw [adjGet_add_edge a v1 v2 hv v]
      by_cases h2 : v = v2
      · rw [if_pos h2]
        by_cases m : v1 ∈ adjGet a v2
        · rw [if_pos m]
          exact hn v2
        · rw [if_neg m, List.nodup_append]
          exact ⟨hn v2, List.nodup_singleton v1,
            fun b hb hb1 => m (by rwa [List.mem_singleton.1 hb1] at hb)⟩
      · rw [if_neg h2]
        by_cases h1 : v = v1
        · rw [if_pos h1]
          by_cases m : v2 ∈ adjGet a v1
          · rw [if_pos m]
            exact hn v1
          · rw [if_neg m, List.nodup_append]
            exact ⟨hn v1, List.nodup_singleton v2,
              fun b hb hb1 => m (by rwa [List.mem_singleton.1 hb1] at hb)⟩
        · rw [if_neg h1]
          exact hn v

/-- remove_edge preserves the C10 invariant. -/
theorem remove_edge_invariant (a : Adj) (v1 v2 : ℕ) (h : AdjInvariant a) :
    AdjInvariant (remove_edge a v1 v2) := by
  obtain ⟨hs, hi, hn⟩ := h
  by_cases hv : v1 = v2
  · subst hv
    have heq := adjGet_remove_edge_same a v1 (hi v1)
    exact ⟨fun x y => by rw [heq, heq]; exact hs x y,
      fun v => by rw [heq]; exact hi v,
      fun v => by rw [heq]; exact hn v⟩
  · refine ⟨?_, ?_, ?_⟩
    · intro x y
      rw [mem_adjGet_remove_edge a v1 v2 hv hn x y,
        mem_adjGet_remove_edge a v1 v2 hv hn y x, hs x y]
      tauto
    · intro v
      rw [mem_adjGet_remove_edge a v1 v2 hv hn v v]
      rintro ⟨hm, _⟩
      exact hi v hm
    · intro v
      rw [adjGet_remove_edge a v1 v2 hv v]
      by_cases h2 : v = v2
      · rw [if_pos h2]
        by_cases m : v1 ∈ adjGet a v2
        · rw [if_pos m]
          exact (hn v2).erase v1
        · rw [if_neg m]
          exact hn v2
      · rw [if_neg h2]
        by_cases h1 : v = v1
        · rw [if_pos h1]
          by_cases m : v2 ∈ adjGet a v1
          · rw [if_pos m]
            exact (hn v1).erase v2
          · rw [if_neg m]
            exact hn v1
        · rw [if_neg h1]
          exact hn v

/-- The empty adjacency satisfies the invariant. -/
theorem adjInvariant_empty : AdjInvariant ([] : Adj) := by
  refine ⟨fun x y => ?_, fun v => ?_, fun v => ?_⟩ <;> simp [adjGet, List.lookup]

/-- Any run of the API preserves the invariant. -/
theorem applyOps_invariant_aux :
    ∀ (ops : List GraphOp) (g : PGraph),
      AdjInvariant g.adjList → AdjInvariant (applyOps g ops).adjList := by
  intro ops
  induction ops with
  | nil => exact fun g h => h
  | cons op rest ih =>
    intro g h
    refine ih (applyOp g op) ?_
    cases op with
    | addNode n t => exact h
    | addEdge v1 v2 => exact add_edge_invariant _ v1 v2 h
    | removeEdge v1 v2 => exact remove_edge_invariant _ v1 v2 h

/-- C10: every graph reachable from the empty Graph by add_node,
add_edge and remove_edge keeps its adjacency symmetric (v2 in
adjList[v1] iff v1 in adjList[v2]), irreflexive (no node in its own
list) and duplicate-free (each neighbor at most once per list). -/
theorem graph_api_adjacency_invariant (ops : List GraphOp) :
    AdjInvariant (applyOps emptyGraph ops).adjList :=
  applyOps_invariant_aux ops emptyGraph adjInvariant_empty

/-! Lemmas for the MLST construction (claim C4). -/

/-- A predicate preserved by every fold step is preserved by the
fold. -/
theorem foldl_preserve {σ β : Type} (P : σ → Prop) (f : σ → β → σ)
    (hf : ∀ s b, P s → P (f s b)) :
    ∀ (l : List β) (s : σ), P s → P (l.foldl f s) := by
  intro l
  induction l with
  | nil => exact fun s h => h
  | cons b rest ih => exact fun s h => ih (f s b) (hf s b h)

/-- A predicate established by the step on a listed element and
preserved afterwards holds after the fold. -/
theorem foldl_reaches {σ β : Type} (Q : σ → Prop) (f : σ → β → σ) (b0 : β)
    (hb : ∀ s, Q (f s b0)) (hpres : ∀ s b, Q s → Q (f s b)) :
    ∀ (l : List β) (s : σ), b0 ∈ l → Q (l.foldl f s) := by
  intro l
  induction l with
  | nil =>
    intro s h
    simp at h
  | cons b rest ih =>
    intro s hmem
    rcases List.mem_cons.1 hmem with hb0 | hb0
    · subst hb0
      exact foldl_preserve Q f hpres rest (f s b0) (hb s)
    · exact ih (f s b) hb0

/-- Phase 1 preserves any property stable under tree_add_edge. -/
theorem mlstPhase1_pres (M : PGraph → Prop)
    (hM : ∀ t v1 v2, M t → M (tree_add_edge t v1 v2)) (a : Adj) (root : ℕ)
    (h0 : M ({ adjList := [], nodeTime := [], root := some root } : PGraph)) :
    M (mlstPhase1 a root).1 := by
  unfold mlstPhase1
  exact foldl_preserve (fun st : PGraph × List ℕ => M st.1) _
    (fun s b h => hM s.1 root b h) _ _ h0

/-- Phase 2 preserves any property stable under tree_add_edge. -/
theorem mlstPhase2_pres (M : PGraph → Prop)
    (hM : ∀ t v1 v2, M t → M (tree_add_edge t v1 v2)) (root : ℕ) (sel : MlstSel)
    (st : PGraph × List ℕ) (h : M st.1) : M (mlstPhase2 root sel st).1 := by
  unfold mlstPhase2
  split
  · exact hM _ _ _ h
  · exact h

/-- Phase 3 preserves any property stable under tree_add_edge. -/
theorem mlstPhase3_pres (M : PGraph → Prop)
    (hM : ∀ t v1 v2, M t → M (tree_add_edge t v1 v2)) (sel : MlstSel)
    (st : PGraph × List ℕ) (h : M st.1) : M (mlstPhase3 sel st).1 := by
  unfold mlstPhase3
  split
  · exact foldl_preserve (fun st2 : PGraph × List ℕ => M st2.1) _
      (fun s b hh => hM _ _ _ hh) _ _ (hM _ _ _ h)
  · exact h

/-- Phase 4 preserves any property stable under tree_add_edge. -/
theorem mlstPhase4_pres (M : PGraph → Prop)
    (hM : ∀ t v1 v2, M t → M (tree_add_edge t v1 v2)) (a : Adj)
    (st : PGraph × List ℕ) (h : M st.1) : M (mlstPhase4 a st).1 := by
  unfold mlstPhase4
  refine foldl_preserve (fun st2 : PGraph × List ℕ => M st2.1) _ ?_ _ _ h
  intro s b hh
  dsimp only
  split
  · exact hh
  · split
    · exact hM _ _ _ hh
    · exact hh

/-- A property stable under tree_add_edge that holds for the fresh
rooted tree holds for the tree get_mlst returns. -/
theorem get_mlst_tree_pres (M : PGraph → Prop)
    (hM : ∀ t v1 v2, M t → M (tree_add_edge t v1 v2)) (g : PGraph) (root : ℕ)
    (h0 : M ({ adjList := [], nodeTime := [], root := some root } : PGraph)) :
    M (get_mlst g root).1 := by
  simp only [get_mlst]
  split
  · exact mlstPhase1_pres M hM _ root h0
  · exact mlstPhase4_pres M hM _ _
      (mlstPhase3_pres M hM _ _
        (mlstPhase2_pres M hM root _ _ (mlstPhase1_pres M hM _ root h0)))

/-- The leaves returned by get_mlst are the leaves of its tree. -/
theorem get_mlst_snd (g : PGraph) (root : ℕ) :
    (get_mlst g root).2 = get_leaves (get_mlst g root).1 := by
  simp only [get_mlst]
  split <;> rfl

/-- Phase 1 installs a tree edge from root to each of its graph
neighbors. -/
theorem mlstPhase1_root_edge (a : Adj) (root nb : ℕ)
    (hmem : nb ∈ adjGet a root) (hne : nb ≠ root) :
    nb ∈ adjGet (mlstPhase1 a root).1.adjList root := by
  unfold mlstPhase1
  refine foldl_reaches (fun st : PGraph × List ℕ => nb ∈ adjGet st.1.adjList root) _
    nb ?_ ?_ _ _ hmem
  · intro s
    exact add_edge_mem_self s.1.adjList root nb fun hh => hne hh.symm
  · intro s b hh
    exact add_edge_mono _ _ _ _ _ hh

/-- The edge from root survives to the returned tree. -/
theorem get_mlst_root_child (g : PGraph) (root nb : ℕ)
    (hmem : nb ∈ adjGet (graphSort g).adjList root) (hne : nb ≠ root) :
    nb ∈ adjGet (get_mlst g root).1.adjList root := by
  have hmono : ∀ (t : PGraph) (v1 v2 : ℕ),
      nb ∈ adjGet t.adjList root → nb ∈ adjGet (tree_add_edge t v1 v2).adjList root :=
    fun t v1 v2 hh => add_edge_mono _ _ _ _ _ hh
  simp only [get_mlst]
  split
  · exact mlstPhase1_root_edge _ root nb hmem hne
  · exact mlstPhase4_pres _ hmono _ _
      (mlstPhase3_pres _ hmono _ _
        (mlstPhase2_pres _ hmono root _ _ (mlstPhase1_root_edge _ root nb hmem hne)))

/-- Lookup through a value-map of an association list. -/
theorem lookup_mapVals (f : List ℕ → List ℕ) (v : ℕ) :
    ∀ (l : Adj),
      List.lookup v (l.map fun e => (e.1, f e.2)) = (List.lookup v l).map f := by
  intro l
  induction l with
  | nil => simp [List.lookup]
  | cons hd tl ih =>
    obtain ⟨k, lk⟩ := hd
    by_cases hk : v = k
    · simp [List.lookup, hk]
    · have hne : (v == k) = false := beq_eq_false_iff_ne.2 hk
      simp [List.lookup, hne, ih]

/-- Membership in a stable insertion. -/
theorem mem_stableInsert (le : ℕ → ℕ → Bool) (x y : ℕ) :
    ∀ (l : List ℕ), y ∈ stableInsert le x l ↔ y = x ∨ y ∈ l := by
  intro l
  induction l with
  | nil => simp [stableInsert]
  | cons z zs ih =>
    by_cases h : le z x
    · simp only [stableInsert, if_pos h, List.mem_cons, ih]
      tauto
    · simp only [stableInsert, if_neg h, List.mem_cons]

/-- Membership through the insertion-sort fold. -/
theorem mem_sorted_foldl (le : ℕ → ℕ → Bool) (y : ℕ) :
    ∀ (l acc : List ℕ),
      y ∈ l.foldl (fun acc x => stableInsert le x acc) acc ↔ y ∈ acc ∨ y ∈ l := by
  intro l
  induction l with
  | nil => simp
  | cons x xs ih =>
    intro acc
    rw [List.foldl_cons, ih, mem_stableInsert]
    simp only [List.mem_cons]
    tauto

/-- get_sorted_nodes is a permutation at the level of membership. -/
theorem mem_get_sorted_nodes (a : Adj) (nodes : List ℕ) (y : ℕ) :
    y ∈ get_sorted_nodes a nodes ↔ y ∈ nodes := by
  unfold get_sorted_nodes
  rw [mem_sorted_foldl]
  simp

/-- Sorting the graph sorts each stored neighbor list. -/
theorem adjGet_graphSort (g : PGraph) (v : ℕ) :
    adjGet (graphSort g).adjList v = get_sorted_nodes g.adjList (adjGet g.adjList v) := by
  unfold adjGet
  rw [show (graphSort g).adjList
      = g.adjList.map (fun e => (e.1, get_sorted_nodes g.adjList e.2)) from rfl,
    lookup_mapVals]
  cases List.lookup v g.adjList <;> rfl

/-- A key of the adjacency has a stored binding. -/
theorem lookup_isSome_of_mem_keys {a : Adj} {k : ℕ} (h : k ∈ adjKeys a) :
    ∃ l, List.lookup k a = some l := by
  induction a with
  | nil => simp [adjKeys] at h
  | cons hd tl ih =>
    obtain ⟨k1, l1⟩ := hd
    by_cases hk : k = k1
    · exact ⟨l1, by simp [List.lookup, hk]⟩
    · have hne : (k == k1) = false := beq_eq_false_iff_ne.2 hk
      have h2 : k ∈ adjKeys tl := by
        simp only [adjKeys, List.map_cons, List.mem_cons] at h
        rcases h with h | h
        · exact absurd h hk
        · exact h
      obtain ⟨l, hl⟩ := ih h2
      exact ⟨l, by simp [List.lookup, hne, hl]⟩

/-- is_leaf on a tree whose root field is known. -/
theorem is_leaf_iff (t : PGraph) (root node : ℕ) (hroot : t.root = some root) :
    (is_leaf t node = true ↔
      node ≠ root ∧ (adjGet t.adjList node).length ≤ 1) := by
  unfold is_leaf
  rw [hroot]
  by_cases h : node = root
  · have hc : (some root : Option ℕ) = some node := by rw [h]
    rw [if_pos hc]
    simp [h]
  · have hc : ¬ (some root : Option ℕ) = some node :=
      fun hh => h (Option.some.inj hh).symm
    rw [if_neg hc]
    simp [h]

/-- On a KeysNonempty graph every listed leaf has exactly one
neighbor. -/
theorem get_leaves_degree (t : PGraph) (hne : KeysNonempty t.adjList) :
    ∀ node ∈ get_leaves t, (adjGet t.adjList node).length = 1 := by
  intro node hmem
  unfold get_leaves at hmem
  obtain ⟨hkeys, hleaf⟩ := List.mem_filter.1 hmem
  obtain ⟨l, hl⟩ := lookup_isSome_of_mem_keys hkeys
  have hlen : (adjGet t.adjList node).length ≤ 1 := by
    unfold is_leaf at hleaf
    by_cases hc : t.root = some node
    · rw [if_pos hc] at hleaf
      exact absurd hleaf (by simp)
    · rw [if_neg hc] at hleaf
      exact of_decide_eq_true hleaf
  have hnil : adjGet t.adjList node ≠ [] := by
    have hlv := hne node l hl
    unfold adjGet
    rw [hl]
    exact hlv
  have hpos : 0 < (adjGet t.adjList node).length := List.length_pos.2 hnil
  omega

/-- Soundness of the decidable irreflexivity check. -/
theorem adjIrreflB_sound (a : Adj) (h : adjIrreflB a = true) :
    ∀ v, v ∉ adjGet a v := by
  intro v hv
  unfold adjGet at hv
  cases hl : List.lookup v a with
  | none =>
    rw [hl] at hv
    simp at hv
  | some l =>
    rw [hl] at hv
    have hmem := lookup_mem hl
    have hall := List.all_eq_true.1 h _ hmem
    exact (of_decide_eq_true hall) hv

/-- C4: for an irreflexive input adjacency, the tree returned by
Graph.get_mlst gives the root at least one child whenever the root
has a neighbor in the input graph; a node is classified a leaf by
is_leaf iff it is not the root and has at most one tree neighbor;
every non-leaf non-root node has at least two tree neighbors; and
every returned leaf has exactly one tree neighbor. -/
theorem mlst_props (g : PGraph) (root : ℕ)
    (hIrr : ∀ v, v ∉ adjGet g.adjList v) :
    (adjGet g.adjList root ≠ [] → adjGet (get_mlst g root).1.adjList root ≠ []) ∧
    (∀ node, is_leaf (get_mlst g root).1 node = true ↔
      (node ≠ root ∧ (adjGet (get_mlst g root).1.adjList node).length ≤ 1)) ∧
    (∀ node, node ≠ root → is_leaf (get_mlst g root).1 node = false →
      2 ≤ (adjGet (get_mlst g root).1.adjList node).length) ∧
    (∀ node ∈ (get_mlst g root).2,
      (adjGet (get_mlst g root).1.adjList node).length = 1) := by
  have hroot : (get_mlst g root).1.root = some root :=
    get_mlst_tree_pres (fun t => t.root = some root) (fun t v1 v2 h => h) g root rfl
  have hkeys : KeysNonempty (get_mlst g root).1.adjList :=
    get_mlst_tree_pres (fun t => KeysNonempty t.adjList)
      (fun t v1 v2 h => add_edge_keysNonempty _ v1 v2 h) g root
      (fun k l hl => by simp [List.lookup] at hl)
  refine ⟨?_, ?_, ?_, ?_⟩
  · intro hnonempty
    obtain ⟨nb, hnb⟩ := List.exists_mem_of_ne_nil _ hnonempty
    have hnbs : nb ∈ adjGet (graphSort g).adjList root := by
      rw [adjGet_graphSort, mem_get_sorted_nodes]
      exact hnb
    have hne : nb ≠ root := fun hh => hIrr root (hh ▸ hnb)
    exact List.ne_nil_of_mem (get_mlst_root_child g root nb hnbs hne)
  · intro node
    exact is_leaf_iff _ root node hroot
  · intro node hne hleaf
    by_contra hlt
    push_neg at hlt
    have hc : is_leaf (get_mlst g root).1 node = true :=
      (is_leaf_iff _ root node hroot).2 ⟨hne, by omega⟩
    rw [hleaf] at hc
    exact Bool.false_ne_true hc
  · intro node hmem
    rw [get_mlst_snd] at hmem
    exact get_leaves_degree _ hkeys node hmem

/-- Witness for C4: the chain 1 - 2 - 3 built through the Graph API,
MLST rooted at 1. -/
theorem mlst_props_witness :
    (adjGet chainGraph.adjList 1 ≠ [] →
      adjGet (get_mlst chainGraph 1).1.adjList 1 ≠ []) ∧
    (∀ node, is_leaf (get_mlst chainGraph 1).1 node = true ↔
      (node ≠ 1 ∧ (adjGet (get_mlst chainGraph 1).1.adjList node).length ≤ 1)) ∧
    (∀ node, node ≠ 1 → is_leaf (get_mlst chainGraph 1).1 node = false →
      2 ≤ (adjGet (get_mlst chainGraph 1).1.adjList node).length) ∧
    (∀ node ∈ (get_mlst chainGraph 1).2,
      (adjGet (get_mlst chainGraph 1).1.adjList node).length = 1) :=
  mlst_props chainGraph 1 (adjIrreflB_sound _ (by decide))

end UavSim
